import Mathlib

/-!
Verification of the tproxy-go core against its specification.

The Go source is shallowly embedded: Go byte slices become `List (Fin 256)`,
Go strings (which are byte strings) become the same type, Go `int` becomes
`Int` (or `Nat` where the source value is provably non-negative), and every
indexed read `data[i]` of the SNI parser becomes an `Option`-valued read, so
that an out-of-bounds access would surface as `none`.  Loops are embedded as
fuelled structural recursions; the fuel passed at each call site is a function
of the input (large enough that, by the loop's own progress, it is never
exhausted), which keeps every definition computable by the kernel.
-/

set_option maxRecDepth 8000

/-- A Go byte. -/
abbrev Byte := Fin 256

/-- A Go byte slice / byte string. -/
abbrev Bytes := List Byte

/-- Encode an ASCII Lean string as Go bytes (used to write byte literals). -/
def strB (s : String) : Bytes := s.data.map (fun c => (Fin.ofNat c.toNat : Byte))

/-- Read one byte: `int(data[i])`.  `none` models an out-of-bounds panic. -/
def readU8 (d : Bytes) (i : Nat) : Option Nat := (d[i]?).map Fin.val

/-- Read a big-endian u16: `int(data[i])<<8 | int(data[i+1])`. -/
def readU16 (d : Bytes) (i : Nat) : Option Nat :=
  match d[i]?, d[i+1]? with
  | some a, some b => some (a.val * 256 + b.val)
  | _, _ => none

/-- Read a big-endian u24: `int(data[i])<<16 | int(data[i+1])<<8 | int(data[i+2])`. -/
def readU24 (d : Bytes) (i : Nat) : Option Nat :=
  match d[i]?, d[i+1]?, d[i+2]? with
  | some a, some b, some c => some (a.val * 65536 + b.val * 256 + c.val)
  | _, _, _ => none

/-- `findTLSHandshake` (proxy.go): scan for the first index `i` with
`data[i] = 0x16`, `data[i+1] = 0x03`, `data[i+2] ∈ {0x01,0x02,0x03}`.
The Go loop runs `i` from `0` to `len(data)-3`; the structural recursion
below visits exactly those windows.  Go's `-1` is modelled as `none`. -/
def findTLSHandshake : Bytes → Option Nat
  | a :: b :: c :: rest =>
    if a = 0x16 ∧ b = 0x03 ∧ (c = 0x01 ∨ c = 0x02 ∨ c = 0x03) then some 0
    else (findTLSHandshake (b :: c :: rest)).map (· + 1)
  | _ => none

/-- `hasEnoughData` (proxy.go). -/
def hasEnoughData (d : Bytes) (pos required : Nat) : Bool :=
  pos + required ≤ d.length

/-- `skipField` (proxy.go). -/
def skipField (d : Bytes) (pos length : Nat) : Nat :=
  if !hasEnoughData d pos length then d.length else pos + length

/-- Tail of `skipVariableField` after the length has been decoded: the Go
source checks `length < 0 || length > 65536` (the first disjunct cannot hold
for a `Nat`) and otherwise defers to `skipField`. -/
def lengthGuard (d : Bytes) (newPos length : Nat) : Nat :=
  if length > 65536 then d.length else skipField d newPos length

/-- `skipVariableField` (proxy.go): skip a variable-length field with a
1-, 2- or 3-byte big-endian length prefix.  Any other `lengthBytes` leaves
`length = 0` and `newPos = pos`, exactly as the Go `switch` falls through. -/
def skipVariableField (d : Bytes) (pos lengthBytes : Nat) : Option Nat :=
  if !hasEnoughData d pos lengthBytes then some d.length
  else
    match lengthBytes with
    | 1 => match readU8 d pos with
           | some v => some (lengthGuard d (pos+1) v)
           | none => none
    | 2 => match readU16 d pos with
           | some v => some (lengthGuard d (pos+2) v)
           | none => none
    | 3 => match readU24 d pos with
           | some v => some (lengthGuard d (pos+3) v)
           | none => none
    | _ => some (lengthGuard d pos 0)

/-- The inner `ServerName` entry loop of `ParseSNI` (proxy.go, lines 233-249).
Each iteration advances `pos` by at least 3, so with fuel `d.length + 1` the
fuel can never be exhausted before the loop condition fails; `some []` models
Go's fall-through to `return ""`. -/
def parseNames (d : Bytes) : Nat → Nat → Nat → Option Bytes
  | 0, _, _ => some []
  | fuel+1, pos, listEnd =>
    if pos < listEnd - 3 then
      match readU8 d pos, readU16 d (pos+1) with
      | some nameType, some nameLength =>
        if pos + 3 + nameLength > d.length then some []
        else if nameType = 0 then some ((d.drop (pos + 3)).take nameLength)
        else parseNames d fuel (pos + 3 + nameLength) listEnd
      | _, _ => none
    else some []

/-- The extension loop of `ParseSNI` (proxy.go, lines 206-254).  Each
iteration advances `pos` by at least 4, so fuel `d.length + 1` is never
exhausted before the loop condition fails.  All `break` paths of the Go
source end at `return ""`, modelled as `some []`. -/
def parseExts (d : Bytes) : Nat → Nat → Nat → Option Bytes
  | 0, _, _ => some []
  | fuel+1, pos, extEnd =>
    if pos < extEnd - 4 then
      match readU16 d pos, readU16 d (pos+2) with
      | some extType, some extLength =>
        if pos + 4 + extLength > d.length then some []
        else if extType = 0 then
          if extLength < 2 then some []
          else
            match readU16 d (pos+4) with
            | some listLength =>
              if listLength < 3 ∨ pos + 6 + listLength > d.length then some []
              else parseNames d fuel (pos + 6) (pos + 6 + listLength)
            | none => none
        else parseExts d fuel (pos + 4 + extLength) extEnd
      | _, _ => none
    else some []

/-- The field-skipping part of `ParseSNI` (proxy.go, from `pos := 9` on):
skip `ClientVersion`, `Random`, `SessionID`, `CipherSuites` and
`CompressionMethods`, then decode the extensions block and run the extension
loop.  The Go variable `handshakeLength` is dead at this point, which is why
this tail does not depend on it. -/
def parseSNITail (d : Bytes) : Option Bytes :=
  match skipVariableField d (skipField d (skipField d 9 2) 32) 1 with
  | none => none
  | some p1 =>
    match skipVariableField d p1 2 with
    | none => none
    | some p2 =>
      match skipVariableField d p2 1 with
      | none => none
      | some pos =>
        if pos + 2 > d.length then some [] else
        match readU16 d pos with
        | none => none
        | some extensionsLength =>
          let extensionsEnd := pos + 2 + extensionsLength
          let extensionsEnd :=
            if extensionsEnd > d.length then d.length else extensionsEnd
          parseExts d (d.length + 1) (pos + 2) extensionsEnd

/-- Body of `ParseSNI` (proxy.go) applied to the data from the located TLS
record onwards.  The `handshakeLength` block is embedded with `Int`
arithmetic exactly as in the source; as in Go, the `handshakeLength < 0`
early return sits inside the `len(data) < 9+handshakeLength` branch. -/
def parseSNIBody (d : Bytes) : Option Bytes :=
  if d.length < 5 then some [] else
  match readU8 d 0 with
  | none => none
  | some b0 =>
    if b0 ≠ 0x16 then some [] else
    match readU16 d 3 with
    | none => none
    | some recordLength =>
      if d.length < 9 then some [] else
      match readU8 d 5 with
      | none => none
      | some h5 =>
        if h5 ≠ 0x01 then some [] else
        match readU24 d 6 with
        | none => none
        | some hl0 =>
          let handshakeLength : Int :=
            if (hl0 : Int) > (recordLength : Int) - 4 then (recordLength : Int) - 4
            else (hl0 : Int)
          if (d.length : Int) < 9 + handshakeLength then
            (if (d.length : Int) - 9 < 0 then some [] else parseSNITail d)
          else parseSNITail d

/-- `ParseSNI` (proxy.go): locate the TLS handshake, then parse the
ClientHello for the first `host_name` server-name entry.  `some []` is Go's
`""`; `none` would be an out-of-bounds panic (proved impossible below). -/
def ParseSNI (d : Bytes) : Option Bytes :=
  match findTLSHandshake d with
  | none => some []
  | some i => parseSNIBody (d.drop i)

/-! ### UTF-8 validity (for the original wording of claim C1) -/

/-- A UTF-8 continuation byte (`0x80`-`0xBF`). -/
def utf8Cont (b : Byte) : Bool := decide (0x80 ≤ b.val ∧ b.val ≤ 0xBF)

/-- Byte-level UTF-8 validity of a byte string, per RFC 3629 (the notion Go's
`utf8.ValidString` decides).  The Go code never checks this. -/
def utf8Valid : Bytes → Bool
  | [] => true
  | c :: t =>
    if c.val ≤ 0x7F then utf8Valid t
    else if 0xC2 ≤ c.val ∧ c.val ≤ 0xDF then
      match t with
      | c1 :: t1 => utf8Cont c1 && utf8Valid t1
      | [] => false
    else if c.val = 0xE0 then
      match t with
      | c1 :: c2 :: t2 =>
        decide (0xA0 ≤ c1.val ∧ c1.val ≤ 0xBF) && utf8Cont c2 && utf8Valid t2
      | _ => false
    else if (0xE1 ≤ c.val ∧ c.val ≤ 0xEC) ∨ c.val = 0xEE ∨ c.val = 0xEF then
      match t with
      | c1 :: c2 :: t2 => utf8Cont c1 && utf8Cont c2 && utf8Valid t2
      | _ => false
    else if c.val = 0xED then
      match t with
      | c1 :: c2 :: t2 =>
        decide (0x80 ≤ c1.val ∧ c1.val ≤ 0x9F) && utf8Cont c2 && utf8Valid t2
      | _ => false
    else if c.val = 0xF0 then
      match t with
      | c1 :: c2 :: c3 :: t3 =>
        decide (0x90 ≤ c1.val ∧ c1.val ≤ 0xBF) && utf8Cont c2 && utf8Cont c3 &&
          utf8Valid t3
      | _ => false
    else if 0xF1 ≤ c.val ∧ c.val ≤ 0xF3 then
      match t with
      | c1 :: c2 :: c3 :: t3 => utf8Cont c1 && utf8Cont c2 && utf8Cont c3 && utf8Valid t3
      | _ => false
    else if c.val = 0xF4 then
      match t with
      | c1 :: c2 :: c3 :: t3 =>
        decide (0x80 ≤ c1.val ∧ c1.val ≤ 0x8F) && utf8Cont c2 && utf8Cont c3 &&
          utf8Valid t3
      | _ => false
    else false

/-- A syntactically complete ClientHello whose single `host_name` server-name
entry consists of the single byte `0xFF` (not valid UTF-8).  Layout: record
header, handshake header, version, 32-byte random, empty session id, one
cipher suite, one compression method, a 10-byte extensions block holding one
SNI extension with a one-entry server-name list. -/
def evilHello : Bytes :=
  [0x16,0x03,0x01,0x00,0x39, 0x01,0x00,0x00,0x35, 0x03,0x03] ++
  List.replicate 32 0 ++
  [0x00, 0x00,0x02,0x00,0x00, 0x01,0x00, 0x00,0x0A,
   0x00,0x00, 0x00,0x06, 0x00,0x04, 0x00, 0x00,0x01, 0xFF]

/-- The same ClientHello with SNI name `"x"` (a well-formed hello for the
prefix-tolerance witness). -/
def sampleHello : Bytes :=
  [0x16,0x03,0x01,0x00,0x39, 0x01,0x00,0x00,0x35, 0x03,0x03] ++
  List.replicate 32 0 ++
  [0x00, 0x00,0x02,0x00,0x00, 0x01,0x00, 0x00,0x0A,
   0x00,0x00, 0x00,0x06, 0x00,0x04, 0x00, 0x00,0x01, 0x78]

/-- The three-byte TLS-handshake pattern `[0x16, 0x03, v]`, `v ∈ {1,2,3}`,
does not occur (contiguously) anywhere in `P`. -/
def NoTLSPattern (P : Bytes) : Prop :=
  ∀ v : Byte, v = 0x01 ∨ v = 0x02 ∨ v = 0x03 → ¬ ([0x16, 0x03, v] <:+: P)

instance : DecidablePred NoTLSPattern := fun P =>
  inferInstanceAs (Decidable
    (∀ v : Byte, v = 0x01 ∨ v = 0x02 ∨ v = 0x03 → ¬ ([0x16, 0x03, v] <:+: P)))

/-! ### Configuration and rule engine (config.go) -/

/-- The colon byte `':'`. -/
def colonB : Byte := 0x3A

/-- Decimal digits of a run of bytes, or `none` if the run is empty or holds
a non-digit (models the digit loop of Go `strconv.ParseInt`, base 10). -/
def digitsValAux : Bytes → Nat → Option Nat
  | [], acc => some acc
  | c :: t, acc =>
    if 0x30 ≤ c.val ∧ c.val ≤ 0x39 then digitsValAux t (acc * 10 + (c.val - 0x30))
    else none

/-- All-digit value of a non-empty byte run. -/
def digitsVal : Bytes → Option Nat
  | [] => none
  | c :: t => digitsValAux (c :: t) 0

/-- Modelled Go `strconv.Atoi` on the bytes of a string: an optional single
`+`/`-` sign followed by at least one decimal digit; values outside the
64-bit `int` range are a range error (`none`).  Any error makes the callers
in config.go / proxy.go keep their default port. -/
def goAtoi (s : Bytes) : Option Int :=
  match s with
  | [] => none
  | c :: t =>
    if c = 0x2B then
      (digitsVal t).bind fun n =>
        if n ≤ 9223372036854775807 then some (n : Int) else none
    else if c = 0x2D then
      (digitsVal t).bind fun n =>
        if n ≤ 9223372036854775808 then some (-(n : Int)) else none
    else
      (digitsVal s).bind fun n =>
        if n ≤ 9223372036854775807 then some (n : Int) else none

/-- `Rule` (config.go): a regex pattern and a raw action string. -/
structure Rule where
  pattern : Bytes
  proxy : Bytes
deriving DecidableEq

/-- `ProxyAction` (config.go): `Type` is `"DIRECT"`, `"PROXY"` or `"DROP"`;
`Host`/`Port` keep their Go zero values (`""`, `0`) unless set. -/
structure ProxyAction where
  typ : Bytes
  host : Bytes
  port : Int
deriving DecidableEq

/-- Index of the last `':'` in a byte string, if any: models the downward
scan `for i := len(proxy) - 1; i >= 0; i--` of `parseProxyAddress`
(config.go), which stops at the rightmost colon. -/
def lastColonIdx : Bytes → Option Nat
  | [] => none
  | c :: t =>
    match lastColonIdx t with
    | some i => some (i + 1)
    | none => if c = colonB then some 0 else none

/-- `parseProxyAddress` (config.go): split on the last colon; a non-empty
port substring that `Atoi` accepts overrides the default `3128`.  Note the
source applies no range check to the parsed port. -/
def parseProxyAddress (proxy : Bytes) : Bytes × Int :=
  match lastColonIdx proxy with
  | none => (proxy, 3128)
  | some i =>
    let portStr := proxy.drop (i + 1)
    (proxy.take i,
      if portStr ≠ [] then
        match goAtoi portStr with
        | some p => p
        | none => 3128
      else 3128)

/-- The `switch rule.Proxy` arm of `FindProxyForHost` (config.go): the raw
action string of a matched rule becomes a `ProxyAction`. -/
def actionFor (proxy : Bytes) : ProxyAction :=
  if proxy = strB "DIRECT" then ⟨strB "DIRECT", [], 0⟩
  else if proxy = strB "DROP" then ⟨strB "DROP", [], 0⟩
  else ⟨strB "PROXY", (parseProxyAddress proxy).1, (parseProxyAddress proxy).2⟩

/-- `FindProxyForHost` (config.go), parameterised by the regex-match oracle
`m pattern host` standing for Go `regexp.MatchString`: `none` models a
pattern that fails to compile (the iteration logs and `continue`s), `some b`
a successful match test.  No rule matching falls back to `DIRECT`. -/
def FindProxyForHost (m : Bytes → Bytes → Option Bool) (host : Bytes) :
    List Rule → ProxyAction
  | [] => ⟨strB "DIRECT", [], 0⟩
  | r :: rs =>
    match m r.pattern host with
    | none => FindProxyForHost m host rs
    | some false => FindProxyForHost m host rs
    | some true => actionFor r.proxy

/-- Specification-side resolver, following the claim's words: the action of
the lowest-index rule whose pattern matches the host (rules whose pattern
fails to compile, `m = none`, are skipped), else `DIRECT`. -/
def specFirstMatchResolve (m : Bytes → Bytes → Option Bool) (host : Bytes)
    (rules : List Rule) : ProxyAction :=
  match rules.find? (fun r => m r.pattern host == some true) with
  | some r => actionFor r.proxy
  | none => ⟨strB "DIRECT", [], 0⟩

/-- Go `strings.Split(s, ":")`: the (never empty) list of the runs between
colons. -/
def splitCh : Bytes → List Bytes
  | [] => [[]]
  | c :: t =>
    if c = colonB then [] :: splitCh t
    else
      match splitCh t with
      | [] => [[c]]
      | h :: r => (c :: h) :: r

/-- Rejoin colon-separated parts (inverse of `splitCh`). -/
def intercalateColon : List Bytes → Bytes
  | [] => []
  | [x] => x
  | x :: y :: t => x ++ colonB :: intercalateColon (y :: t)

/-- Specification-side form of the amended claim C3: split on the last colon
(the part after the last colon is the port candidate), default port 3128 on
an absent, empty or non-numeric port; a parsed value is used as-is, with no
range restriction. -/
def specParseProxyAddress (proxy : Bytes) : Bytes × Int :=
  let parts := splitCh proxy
  if parts.length ≤ 1 then (proxy, 3128)
  else
    (intercalateColon parts.dropLast,
      match goAtoi (parts.getLastD []) with
      | some p => p
      | none => 3128)

/-- The original claim C3's reading of `parseProxyAddress`: as above but a
port outside `[1, 65535]` also falls back to 3128. -/
def claimParseProxyAddress (proxy : Bytes) : Bytes × Int :=
  let parts := splitCh proxy
  if parts.length ≤ 1 then (proxy, 3128)
  else
    (intercalateColon parts.dropLast,
      match goAtoi (parts.getLastD []) with
      | some p => if 1 ≤ p ∧ p ≤ 65535 then p else 3128
      | none => 3128)

/-! ### Literal-pattern regex matching (claim C8)

`FindProxyForHost` calls Go `regexp.MatchString(pattern, host)`, which
reports whether the host *contains any* match of the pattern — it is not
anchored.  The oracle below embeds that documented semantics restricted to
patterns free of regex metacharacters, for which "a match of the pattern"
is exactly an occurrence of the pattern's bytes. -/

/-- Does the pattern match starting exactly at the head of the text? -/
def litMatchAt : Bytes → Bytes → Bool
  | [], _ => true
  | _ :: _, [] => false
  | p :: ps, t :: ts => p == t && litMatchAt ps ts

/-- Go `regexp.MatchString` for a metacharacter-free pattern: try the
pattern at every start offset of the host. -/
def goMatchLit (p : Bytes) : Bytes → Bool
  | [] => litMatchAt p []
  | c :: t => litMatchAt p (c :: t) || goMatchLit p t

/-- The pattern uses no regex metacharacter, so it denotes its own bytes. -/
def regexMetaFree (p : Bytes) : Bool :=
  p.all (fun c =>
    !(([0x5C, 0x2E, 0x2B, 0x2A, 0x3F, 0x28, 0x29, 0x7C,
        0x5B, 0x5D, 0x7B, 0x7D, 0x5E, 0x24] : Bytes).contains c))

/-- The regex oracle `FindProxyForHost` runs on, for metacharacter-free
patterns: defined (`some`) exactly there, with Go `MatchString`'s
contains-a-match semantics. -/
def litOracle (pat host : Bytes) : Option Bool :=
  if regexMetaFree pat then some (goMatchLit pat host) else none

/-! ### HTTP Host parser (proxy.go, `ParseHTTPHost`) -/

/-- The newline byte and the CRLF line. -/
def nlB : Byte := 0x0A

/-- The bytes of `"\r\n"`. -/
def crlfB : Bytes := [0x0D, 0x0A]

/-- The bytes of the `"Host: "` header prelude. -/
def hostHeader : Bytes := strB "Host: "

/-- Go `bufio.Reader.ReadString('\n')` over a byte stream: the line up to
and including the first `'\n'`, plus the rest.  `none` models the error
return when no `'\n'` remains (the callers discard the partial line). -/
def readLine : Bytes → Option (Bytes × Bytes)
  | [] => none
  | c :: t =>
    if c = nlB then some ([c], t)
    else
      match readLine t with
      | none => none
      | some (l, r) => some (c :: l, r)

/-- All complete (`'\n'`-terminated) lines of a byte stream, terminators
included; a trailing partial line is dropped. -/
def linesOf : Bytes → List Bytes
  | [] => []
  | c :: t =>
    if c = nlB then [nlB] :: linesOf t
    else
      match linesOf t with
      | [] => []
      | l :: ls => (c :: l) :: ls

/-- Go `unicode.IsSpace` on an ASCII byte. -/
def isSpaceB (b : Byte) : Bool :=
  b = 0x09 || b = 0x0A || b = 0x0B || b = 0x0C || b = 0x0D || b = 0x20

/-- Go `strings.TrimSpace` on ASCII data. -/
def trimSpace (l : Bytes) : Bytes :=
  ((l.dropWhile isSpaceB).reverse.dropWhile isSpaceB).reverse

/-- The `Host:` branch of `ParseHTTPHost` (proxy.go): `strings.Split` on
`":"`, `host := parts[0]`, and `parts[1]` overrides port 80 when `Atoi`
accepts it.  (`Split` on the whole value: the port candidate is the run
between the first and second colon.) -/
def parseHostValue (hostStr : Bytes) : Bytes × Int :=
  let parts := splitCh hostStr
  (parts.headD [],
    if parts.length > 1 then
      match goAtoi (parts.getD 1 []) with
      | some p => p
      | none => 80
    else 80)

/-- The header loop of `ParseHTTPHost` (proxy.go): stop on read error or on
the bare CRLF line, return on the first `Host: ` line.  The loop consumes at
least one byte per iteration, so fuel `rest.length + 1` never runs out. -/
def ParseHTTPHostLoop : Nat → Bytes → Bytes × Int
  | 0, _ => ([], 80)
  | fuel+1, rest =>
    match readLine rest with
    | none => ([], 80)
    | some (line, rest') =>
      if line = crlfB then ([], 80)
      else if hostHeader.isPrefixOf line then
        parseHostValue (trimSpace (line.drop hostHeader.length))
      else ParseHTTPHostLoop fuel rest'

/-- `ParseHTTPHost` (proxy.go): skip the request line, then scan headers. -/
def ParseHTTPHost (data : Bytes) : Bytes × Int :=
  match readLine data with
  | none => ([], 80)
  | some (_, rest) => ParseHTTPHostLoop (rest.length + 1) rest

/-- Bool form of "is not the colon byte". -/
def notColon (c : Byte) : Bool := c != colonB

/-- Bool form of "is not the bare CRLF line". -/
def notCRLF (l : Bytes) : Bool := l != crlfB

/-- Host/port from a `Host:` value per the amended claim C4: split at the
*first* colon; the run between the first and second colon is the port
candidate, accepted whenever Go `Atoi` accepts it. -/
def specHostValue (hostStr : Bytes) : Bytes × Int :=
  let host := hostStr.takeWhile notColon
  match hostStr.dropWhile notColon with
  | [] => (host, 80)
  | _ :: r =>
    (host,
      match goAtoi (r.takeWhile notColon) with
      | some p => p
      | none => 80)

/-- Specification-side `ParseHTTPHost`, over the lines view of the buffer:
drop the request line, look among the complete header lines before the first
bare CRLF for the first `Host: ` line, and decode it with `specHostValue`;
otherwise `("", 80)`. -/
def specParseHTTPHost (data : Bytes) : Bytes × Int :=
  match linesOf data with
  | [] => ([], 80)
  | _ :: hdrs =>
    match (hdrs.takeWhile notCRLF).find? (fun l => hostHeader.isPrefixOf l) with
    | none => ([], 80)
    | some line => specHostValue (trimSpace (line.drop hostHeader.length))

/-- Host/port from a `Host:` value per the original claim C4: split on the
*last* colon, and the port must parse as a decimal `uint16`. -/
def claimHostValue (hostStr : Bytes) : Bytes × Int :=
  let parts := splitCh hostStr
  if parts.length ≤ 1 then (hostStr, 80)
  else
    (intercalateColon parts.dropLast,
      match goAtoi (parts.getLastD []) with
      | some p => if 0 ≤ p ∧ p ≤ 65535 then p else 80
      | none => 80)

/-- `ParseHTTPHost` as the original claim C4 describes it. -/
def claimParseHTTPHost (data : Bytes) : Bytes × Int :=
  match linesOf data with
  | [] => ([], 80)
  | _ :: hdrs =>
    match (hdrs.takeWhile notCRLF).find? (fun l => hostHeader.isPrefixOf l) with
    | none => ([], 80)
    | some line => claimHostValue (trimSpace (line.drop hostHeader.length))

/-! ### Upstream CONNECT dialer (proxy.go, `ConnectViaProxy`) -/

/-- Decimal digits of `n` (fuel-based; fuel `n + 1` always suffices). -/
def natDigits : Nat → Nat → Bytes
  | 0, _ => []
  | fuel+1, n =>
    if n < 10 then [(Fin.ofNat (0x30 + n) : Byte)]
    else natDigits fuel (n / 10) ++ [(Fin.ofNat (0x30 + n % 10) : Byte)]

/-- Go `fmt` `%d` of an `int`. -/
def goItoa (i : Int) : Bytes :=
  if i < 0 then 0x2D :: natDigits (i.natAbs + 1) i.natAbs
  else natDigits (i.natAbs + 1) i.natAbs

/-- Result of the CONNECT handshake: the socket with the response stream
positioned after the headers, a refusal carrying the status line, or a
read error on the status line. -/
inductive ConnectOutcome where
  | ok (request leftover : Bytes)
  | refused (request statusLine : Bytes)
  | readErr (request : Bytes)
deriving DecidableEq

/-- The CONNECT request exactly as `ConnectViaProxy` (proxy.go) formats it,
sent in a single write. -/
def connectRequest (targetHost : Bytes) (targetPort : Int) (clientIP : Bytes) : Bytes :=
  strB "CONNECT " ++ targetHost ++ [colonB] ++ goItoa targetPort ++
    strB " HTTP/1.1" ++ crlfB ++
  strB "Host: " ++ targetHost ++ [colonB] ++ goItoa targetPort ++ crlfB ++
  strB "X-Forwarded-For: " ++ clientIP ++ crlfB ++
  strB "Forwarded: for=" ++ clientIP ++ crlfB ++ crlfB

/-- The header-discard loop of `ConnectViaProxy` viewed over the plain byte
stream (reader and socket collapsed into one sequence of bytes): read lines
until a read error (everything consumed) or the bare CRLF line; return the
remaining bytes.  A proof auxiliary used to relate the buffered loop below
to `specAfterHeaders`. -/
def skipRespHeaders : Nat → Bytes → Bytes
  | 0, _ => []
  | fuel+1, rest =>
    match readLine rest with
    | none => []
    | some (line, rest') =>
      if line = crlfB then rest' else skipRespHeaders fuel rest'

/-- One `bufio.Reader.ReadString('\n')` over a live socket: `buf` holds the
bytes already pulled from the socket but not yet consumed, `conn` the chunks
the socket will deliver on successive `Read`s (whatever sizes the network
happens to deliver; Go caps each pull at the reader's 4096-byte buffer, a
bound no theorem depends on).  Scan `buf` for a newline, pulling the next
chunk into `buf` whenever it has none; a drained socket with no newline is
the read error (`none`), after which the reader has consumed everything.
Fuel `conn.length + 1` always suffices (one pull per step). -/
def bufReadLine : Nat → Bytes → List Bytes → Option (Bytes × Bytes × List Bytes)
  | 0, buf, conn =>
    (match readLine buf with
     | some (l, r) => some (l, r, conn)
     | none => none)
  | fuel+1, buf, conn =>
    match readLine buf with
    | some (l, r) => some (l, r, conn)
    | none =>
      match conn with
      | [] => none
      | c :: rest => bufReadLine fuel (buf ++ c) rest

/-- The header-discard loop of `ConnectViaProxy` (proxy.go) through the
buffered reader: on the CRLF-only line the surrounding function returns the
raw `conn`, so whatever sits unconsumed in the reader's buffer is discarded
with the reader; on a read error the reader has drained the socket.  Result:
the chunks the socket still holds. -/
def skipRespHeadersBuf : Nat → Bytes → List Bytes → List Bytes
  | 0, _, _ => []
  | fuel+1, buf, conn =>
    match bufReadLine (conn.length + 1) buf conn with
    | none => []
    | some (line, buf', conn') =>
      if line = crlfB then conn'
      else skipRespHeadersBuf fuel buf' conn'

/-- `ConnectViaProxy` (proxy.go) as a function of the chunks the upstream
socket delivers: write the CONNECT request in one write, read the status
line and then the header lines through `bufio.NewReader(conn)`, and return
the raw socket `conn` — the reader, and with it any read-ahead past the end
of the headers, is discarded.  The `ok` leftover is the byte stream the
returned socket still holds. -/
def ConnectViaProxy (targetHost : Bytes) (targetPort : Int) (clientIP : Bytes)
    (respChunks : List Bytes) : ConnectOutcome :=
  let request := connectRequest targetHost targetPort clientIP
  match bufReadLine (respChunks.length + 1) [] respChunks with
  | none => .readErr request
  | some (statusLine, buf, conn) =>
    if (strB "HTTP/1.1 200").isPrefixOf statusLine then
      .ok request
        (skipRespHeadersBuf (buf.length + conn.flatten.length + 1) buf conn).flatten
    else .refused request statusLine

/-- Specification-side position after the upstream headers: everything past
the first bare CRLF among the complete lines; if the stream ends first, the
reader has drained it all. -/
def specAfterHeaders (r : Bytes) : Bytes :=
  let ls := linesOf r
  let hdr := ls.takeWhile notCRLF
  if hdr.length = ls.length then []
  else r.drop ((hdr.map List.length).sum + 2)

/-- `ConnectViaProxy` as the original claim C5 reads it, over the flattened
byte stream: the upstream is established iff the status line begins with
`HTTP/1.1 200`; any other status line is a refusal carrying that line; and
on success the socket sits *exactly* at the end of the upstream headers —
the final conjunct the program does not guarantee (see the
counterexample). -/
def specConnectViaProxy (targetHost : Bytes) (targetPort : Int) (clientIP : Bytes)
    (response : Bytes) : ConnectOutcome :=
  let request := connectRequest targetHost targetPort clientIP
  match linesOf response with
  | [] => .readErr request
  | statusLine :: _ =>
    if (strB "HTTP/1.1 200").isPrefixOf statusLine then
      .ok request (specAfterHeaders (response.drop statusLine.length))
    else .refused request statusLine

/-! ### Connection handler (server.go, `proxyConnection`) and relay -/

/-- Dispatch outcome of `proxyConnection` (server.go, lines 525-541). -/
inductive Dispatch where
  | drop
  | direct (host : Bytes) (port : Int)
  | viaProxy (proxyHost : Bytes) (proxyPort : Int) (host : Bytes) (port : Int)
deriving DecidableEq

/-- The dial decision of `proxyConnection` (server.go): `DROP` returns at
once; `ConnectViaProxy` is used only when the action's type is `PROXY` *and*
its host is non-empty *and* its port is non-zero; every other action falls
through to `ConnectDirect` on the target. -/
def dispatchOf (a : ProxyAction) (targetHost : Bytes) (targetPort : Int) : Dispatch :=
  if a.typ = strB "DROP" then .drop
  else if a.typ = strB "PROXY" ∧ a.host ≠ [] ∧ a.port ≠ 0 then
    .viaProxy a.host a.port targetHost targetPort
  else .direct targetHost targetPort

/-- Environment of one `proxyConnection` run (server.go, lines 530-568): did
the upstream dial succeed, did the write of the peeked bytes succeed, and
which chunks would the client→upstream relay copy afterwards. -/
structure ProxyConnEnv where
  dialOk : Bool
  writeInitialOk : Bool
  clientChunks : List Bytes

/-- Upstream-side trace of `proxyConnection` (server.go, lines 525-568): the
list of writes the upstream connection receives, in order, and whether the
two relay pipes were started.  A failed dial or DROP writes nothing; a
non-empty peek buffer is written first, before the relays start, and a
failure of that write returns without relaying. -/
def proxyConnectionUpstream (a : ProxyAction) (initialData : Bytes)
    (env : ProxyConnEnv) : List Bytes × Bool :=
  if a.typ = strB "DROP" then ([], false)
  else if !env.dialOk then ([], false)
  else if initialData ≠ [] then
    if env.writeInitialOk then (initialData :: env.clientChunks, true)
    else ([], false)
  else (env.clientChunks, true)

/-- The two directions of a `net.Conn` endpoint. -/
structure ConnEnd where
  readOpen : Bool
  writeOpen : Bool
deriving DecidableEq

/-- Go `net.Conn.Close`: shuts the connection down entirely, both
directions. -/
def goConnClose (_ : ConnEnd) : ConnEnd := ⟨false, false⟩

/-- Go `net.TCPConn.CloseWrite` (half-close): only the write side goes
down.  The source never calls this. -/
def goConnCloseWrite (c : ConnEnd) : ConnEnd := ⟨c.readOpen, false⟩

/-- The copy loop of `Pipe` (proxy.go): forward each non-empty chunk read
from `src`, in order, until EOF. -/
def pipeCopy : List Bytes → List Bytes
  | [] => []
  | c :: t => if c ≠ [] then c :: pipeCopy t else pipeCopy t

/-- `Pipe` (proxy.go) on an exiting run: the chunks read from `src` are
written to `dst` in order, and the deferred `dst.Close()` then closes `dst`
entirely. -/
def Pipe (srcChunks : List Bytes) (dst : ConnEnd) : List Bytes × ConnEnd :=
  (pipeCopy srcChunks, goConnClose dst)

/-! ### Safety of the SNI parser (claim C1) -/

theorem readU8_some {d : Bytes} {i : Nat} (h : i < d.length) :
    ∃ v, readU8 d i = some v := by
  simp [readU8, List.getElem?_eq_getElem h]

theorem readU16_some {d : Bytes} {i : Nat} (h : i + 1 < d.length) :
    ∃ v, readU16 d i = some v := by
  have h0 : i < d.length := by omega
  simp [readU16, List.getElem?_eq_getElem h0, List.getElem?_eq_getElem h]

theorem readU24_some {d : Bytes} {i : Nat} (h : i + 2 < d.length) :
    ∃ v, readU24 d i = some v := by
  have h0 : i < d.length := by omega
  have h1 : i + 1 < d.length := by omega
  simp [readU24, List.getElem?_eq_getElem h0, List.getElem?_eq_getElem h1,
        List.getElem?_eq_getElem h]

theorem skipVariableField_some (d : Bytes) (pos n : Nat) :
    ∃ p, skipVariableField d pos n = some p := by
  by_cases hE : hasEnoughData d pos n
  case neg =>
    exact ⟨d.length, by simp [skipVariableField, hE]⟩
  case pos =>
    have hle : pos + n ≤ d.length := by
      simpa [hasEnoughData] using hE
    rcases n with _ | _ | _ | _ | n
    · exact ⟨lengthGuard d pos 0, by simp [skipVariableField, hE]⟩
    · obtain ⟨v, hv⟩ := readU8_some (show pos < d.length by omega)
      exact ⟨lengthGuard d (pos+1) v, by simp [skipVariableField, hE, hv]⟩
    · obtain ⟨v, hv⟩ := readU16_some (show pos + 1 < d.length by omega)
      exact ⟨lengthGuard d (pos+2) v, by simp [skipVariableField, hE, hv]⟩
    · obtain ⟨v, hv⟩ := readU24_some (show pos + 2 < d.length by omega)
      exact ⟨lengthGuard d (pos+3) v, by simp [skipVariableField, hE, hv]⟩
    · exact ⟨lengthGuard d pos 0, by simp [skipVariableField, hE]⟩

/-- A contiguous slice `data[a : a+b]` is an infix of the buffer. -/
theorem slice_isInfix (d : Bytes) (a b : Nat) : (d.drop a).take b <:+: d :=
  ( List.take_prefix _ _).isInfix.trans ( List.drop_suffix _ _).isInfix

theorem parseNames_safe (d : Bytes) :
    ∀ fuel pos listEnd, listEnd ≤ d.length →
      ∃ s, parseNames d fuel pos listEnd = some s ∧ s <:+: d := by
  intro fuel
  induction fuel with
  | zero =>
    intro pos listEnd _
    exact ⟨[], by simp [parseNames], List.nil_infix⟩
  | succ fuel ih =>
    intro pos listEnd hE
    by_cases hlt : pos < listEnd - 3
    case neg =>
      exact ⟨[], by simp [parseNames, hlt], List.nil_infix⟩
    case pos =>
      obtain ⟨nt, hnt⟩ := readU8_some (show pos < d.length by omega)
      obtain ⟨nl, hnl⟩ := readU16_some (show pos + 1 + 1 < d.length by omega)
      by_cases hb : pos + 3 + nl > d.length
      · exact ⟨[], by simp [parseNames, hlt, hnt, hnl, hb], List.nil_infix⟩
      · by_cases hz : nt = 0
        · exact ⟨_, by simp [parseNames, hlt, hnt, hnl, hb, hz],
            slice_isInfix d (pos + 3) nl⟩
        · obtain ⟨s, hs, hinf⟩ := ih (pos + 3 + nl) listEnd hE
          exact ⟨s, by simp [parseNames, hlt, hnt, hnl, hb, hz, hs], hinf⟩

theorem parseExts_safe (d : Bytes) :
    ∀ fuel pos extEnd, extEnd ≤ d.length →
      ∃ s, parseExts d fuel pos extEnd = some s ∧ s <:+: d := by
  intro fuel
  induction fuel with
  | zero =>
    intro pos extEnd _
    exact ⟨[], by simp [parseExts], List.nil_infix⟩
  | succ fuel ih =>
    intro pos extEnd hE
    by_cases hlt : pos < extEnd - 4
    case neg =>
      exact ⟨[], by simp [parseExts, hlt], List.nil_infix⟩
    case pos =>
      obtain ⟨ty, hty⟩ := readU16_some (show pos + 1 < d.length by omega)
      obtain ⟨el, hel⟩ := readU16_some (show pos + 2 + 1 < d.length by omega)
      by_cases hb : pos + 4 + el > d.length
      · exact ⟨[], by simp [parseExts, hlt, hty, hel, hb], List.nil_infix⟩
      · by_cases hz : ty = 0
        · by_cases hsmall : el < 2
          · exact ⟨[], by simp [parseExts, hlt, hty, hel, hb, hz, hsmall],
              List.nil_infix⟩
          · obtain ⟨ll, hll⟩ := readU16_some (show pos + 4 + 1 < d.length by omega)
            by_cases hbad : ll < 3 ∨ pos + 6 + ll > d.length
            · exact ⟨[], by simp [parseExts, hlt, hty, hel, hb, hz, hsmall, hll, hbad],
                List.nil_infix⟩
            · obtain ⟨s, hs, hinf⟩ :=
                parseNames_safe d fuel (pos + 6) (pos + 6 + ll) (by omega)
              exact ⟨s, by simp [parseExts, hlt, hty, hel, hb, hz, hsmall, hll, hbad, hs],
                hinf⟩
        · obtain ⟨s, hs, hinf⟩ := ih (pos + 4 + el) extEnd hE
          exact ⟨s, by simp [parseExts, hlt, hty, hel, hb, hz, hs], hinf⟩

theorem parseSNITail_safe (d : Bytes) :
    ∃ s, parseSNITail d = some s ∧ s <:+: d := by
  obtain ⟨p1, hp1⟩ := skipVariableField_some d (skipField d (skipField d 9 2) 32) 1
  obtain ⟨p2, hp2⟩ := skipVariableField_some d p1 2
  obtain ⟨pos, hpos⟩ := skipVariableField_some d p2 1
  by_cases hg : pos + 2 > d.length
  · exact ⟨[], by simp [parseSNITail, hp1, hp2, hpos, hg], List.nil_infix⟩
  · obtain ⟨exl, hexl⟩ := readU16_some (show pos + 1 < d.length by omega)
    have hclamp :
        (if pos + 2 + exl > d.length then d.length else pos + 2 + exl) ≤ d.length := by
      split <;> omega
    obtain ⟨s, hs, hinf⟩ := parseExts_safe d (d.length + 1) (pos + 2) _ hclamp
    exact ⟨s, by simp only [parseSNITail, hp1, hp2, hpos, if_neg hg, hexl]; exact hs, hinf⟩

theorem parseSNIBody_safe (d : Bytes) :
    ∃ s, parseSNIBody d = some s ∧ s <:+: d := by
  by_cases h5 : d.length < 5
  · exact ⟨[], by simp [parseSNIBody, h5], List.nil_infix⟩
  obtain ⟨b0, hb0⟩ := readU8_some (show 0 < d.length by omega)
  by_cases hb0v : b0 ≠ 0x16
  · exact ⟨[], by simp [parseSNIBody, h5, hb0, hb0v], List.nil_infix⟩
  obtain ⟨rl, hrl⟩ := readU16_some (show 3 + 1 < d.length by omega)
  by_cases h9 : d.length < 9
  · exact ⟨[], by simp [parseSNIBody, h5, hb0, hb0v, hrl, h9], List.nil_infix⟩
  obtain ⟨ht, hht⟩ := readU8_some (show 5 < d.length by omega)
  by_cases htv : ht ≠ 1
  · exact ⟨[], by simp [parseSNIBody, h5, hb0, hb0v, hrl, h9, hht, htv], List.nil_infix⟩
  obtain ⟨hl0, hhl0⟩ := readU24_some (show 6 + 2 < d.length by omega)
  have hnn : ¬ ((d.length : Int) - 9 < 0) := by omega
  obtain ⟨s, hs, hinf⟩ := parseSNITail_safe d
  refine ⟨s, ?_, hinf⟩
  simp [parseSNIBody, h5, hb0, hb0v, hrl, h9, hht, htv, hhl0, hnn, hs]

/-- C1 (amended): for every byte slice `b`, `ParseSNI b` terminates without
any out-of-bounds read (it never produces the `none` that models a panic)
and returns either the empty string or a byte string whose bytes appear
contiguously within `b`.  (The original claim additionally promised a valid
UTF-8 host name; the code copies the name bytes verbatim without any UTF-8
validation, see the counterexample.) -/
theorem ParseSNI_total_never_oob_contiguous (b : Bytes) :
    ∃ s, ParseSNI b = some s ∧ s <:+: b := by
  match hf : findTLSHandshake b with
  | none => exact ⟨[], by simp [ParseSNI, hf], List.nil_infix⟩
  | some i =>
    obtain ⟨s, hs, hinf⟩ := parseSNIBody_safe (b.drop i)
    exact ⟨s, by simp [ParseSNI, hf, hs],
      hinf.trans ( List.drop_suffix _ _).isInfix⟩


/-- C1, counterexample to the original claim: on `evilHello` the parser
returns the non-empty name `[0xFF]`, which is not valid UTF-8 (Go's
`string(data[pos:pos+nameLength])` copies the bytes verbatim, with no UTF-8
validation), so `ParseSNI` does not always return "either the empty string
or a valid UTF-8 host name". -/
theorem ParseSNI_c1_utf8_counterexample :
    ParseSNI evilHello = some [0xFF] ∧ utf8Valid [0xFF] = false ∧
      ([0xFF] : Bytes) ≠ [] :=
  ⟨by decide, by decide, by decide⟩

/-! ### Prefix tolerance (claim C6) -/


theorem noTLSPattern_tail {a : Byte} {P : Bytes} (h : NoTLSPattern (a :: P)) :
    NoTLSPattern P := by
  intro v hv hinf
  exact h v hv (hinf.trans ( List.suffix_cons a P).isInfix)

/-- One unfolding step of the scanner on a buffer with at least three bytes. -/
theorem findTLSHandshake_cons3 (a b c : Byte) (t : Bytes) :
    findTLSHandshake (a :: b :: c :: t) =
      if a = 0x16 ∧ b = 0x03 ∧ (c = 0x01 ∨ c = 0x02 ∨ c = 0x03) then some 0
      else (findTLSHandshake (b :: c :: t)).map (· + 1) :=
  rfl

/-- At the start of a TLS record the scanner fires immediately. -/
theorem findTLSHandshake_start (v : Byte) (t : Bytes)
    (hv : v = 0x01 ∨ v = 0x02 ∨ v = 0x03) :
    findTLSHandshake (0x16 :: 0x03 :: v :: t) = some 0 := by
  rw [findTLSHandshake_cons3, if_pos ⟨rfl, rfl, hv⟩]

/-- The scanner finds the handshake exactly at the boundary: no window inside
`P` matches, no window straddling the boundary matches (the hello starts
`0x16 0x03`, and `0x16 ∉ {1,2,3}`, `0x16 ≠ 0x03`), and the window at offset
`P.length` matches. -/
theorem findTLSHandshake_append (P : Bytes) (v : Byte) (rest : Bytes)
    (hP : NoTLSPattern P) (hv : v = 0x01 ∨ v = 0x02 ∨ v = 0x03) :
    findTLSHandshake (P ++ 0x16 :: 0x03 :: v :: rest) = some P.length := by
  induction P with
  | nil => simpa using findTLSHandshake_start v rest hv
  | cons a P ih =>
    have hrec := ih (noTLSPattern_tail hP)
    rcases P with _ | ⟨b, P'⟩
    · have hc : ¬ ((a = (0x16 : Byte)) ∧ ((0x16 : Byte) = (0x03 : Byte)) ∧
          (((0x03 : Byte) = 0x01) ∨ ((0x03 : Byte) = 0x02) ∨ ((0x03 : Byte) = 0x03))) := by
        rintro ⟨-, h2, -⟩
        exact absurd h2 (by decide)
      simp only [List.nil_append] at hrec
      simp only [List.cons_append, List.nil_append]
      rw [findTLSHandshake_cons3, if_neg hc, hrec]
      rfl
    · rcases P' with _ | ⟨c, P''⟩
      · have hc : ¬ ((a = (0x16 : Byte)) ∧ (b = (0x03 : Byte)) ∧
            (((0x16 : Byte) = 0x01) ∨ ((0x16 : Byte) = 0x02) ∨ ((0x16 : Byte) = 0x03))) := by
          rintro ⟨-, -, h3⟩
          rcases h3 with h | h | h <;> exact absurd h (by decide)
        simp only [List.cons_append, List.nil_append] at hrec
        simp only [List.cons_append, List.nil_append]
        rw [findTLSHandshake_cons3, if_neg hc, hrec]
        rfl
      · have hc : ¬ ((a = (0x16 : Byte)) ∧ (b = (0x03 : Byte)) ∧
            ((c = 0x01) ∨ (c = 0x02) ∨ (c = 0x03))) := by
          rintro ⟨h1, h2, h3⟩
          exact hP c h3 ⟨[], P'', by simp [h1, h2]⟩
        simp only [List.cons_append] at hrec
        simp only [List.cons_append]
        rw [findTLSHandshake_cons3, if_neg hc, hrec]
        simp

/-- C6: prefix tolerance.  For every well-formed ClientHello `H` (it begins
with the record bytes `0x16 0x03 v`, `v ∈ {1,2,3}`) whose extracted SNI is
`s`, and every byte prefix `P` that does not contain the three-byte pattern
`0x16 0x03 0x0{1,2,3}`, `ParseSNI (P ++ H) = s`: prepending non-TLS bytes
does not change the extracted SNI. -/
theorem ParseSNI_prefix_tolerance (P : Bytes) (v : Byte) (rest s : Bytes)
    (hP : NoTLSPattern P) (hv : v = 0x01 ∨ v = 0x02 ∨ v = 0x03)
    (hs : ParseSNI (0x16 :: 0x03 :: v :: rest) = some s) :
    ParseSNI (P ++ 0x16 :: 0x03 :: v :: rest) = some s := by
  have h1 := findTLSHandshake_append P v rest hP hv
  have h2 : ParseSNI (P ++ 0x16 :: 0x03 :: v :: rest) =
      parseSNIBody (0x16 :: 0x03 :: v :: rest) := by
    simp [ParseSNI, h1, List.drop_left]
  have h3 : ParseSNI (0x16 :: 0x03 :: v :: rest) =
      parseSNIBody (0x16 :: 0x03 :: v :: rest) := by
    simp [ParseSNI, findTLSHandshake_start v rest hv]
  rw [h2, ← h3, hs]

/-- C6, witness: three zero bytes prepended to `sampleHello` (SNI `"x"`,
i.e. the byte `0x78`) leave the extracted SNI unchanged. -/
theorem ParseSNI_prefix_tolerance_witness :
    NoTLSPattern [0x00, 0x00, 0x00] ∧
      ParseSNI ([0x00, 0x00, 0x00] ++ sampleHello) = some [0x78] := by
  refine ⟨by decide, ?_⟩
  exact ParseSNI_prefix_tolerance [0x00, 0x00, 0x00] 0x01
    ([0x00,0x39, 0x01,0x00,0x00,0x35, 0x03,0x03] ++
      List.replicate 32 0 ++
      [0x00, 0x00,0x02,0x00,0x00, 0x01,0x00, 0x00,0x0A,
       0x00,0x00, 0x00,0x06, 0x00,0x04, 0x00, 0x00,0x01, 0x78])
    [0x78] (by decide) (Or.inl rfl) (by decide)

/-! ### Rule resolution (claims C2, C3, C8) -/

/-- C2: `FindProxyForHost` returns the action of the lowest-index rule whose
pattern matches the host; rules whose pattern fails to compile (oracle
`none`) are skipped and later rules are still evaluated; with no match the
result is the `DIRECT` action. -/
theorem FindProxyForHost_first_match (m : Bytes → Bytes → Option Bool)
    (host : Bytes) (rules : List Rule) :
    FindProxyForHost m host rules = specFirstMatchResolve m host rules := by
  induction rules with
  | nil => rfl
  | cons r rs ih =>
    rcases hm : m r.pattern host with _ | b
    · rw [show FindProxyForHost m host (r :: rs) = FindProxyForHost m host rs by
        simp [FindProxyForHost, hm], ih]
      unfold specFirstMatchResolve
      rw [List.find?_cons_of_neg _ (by simp [hm])]
    · cases b with
      | false =>
        rw [show FindProxyForHost m host (r :: rs) = FindProxyForHost m host rs by
          simp [FindProxyForHost, hm], ih]
        unfold specFirstMatchResolve
        rw [List.find?_cons_of_neg _ (by simp [hm])]
      | true =>
        unfold specFirstMatchResolve
        rw [List.find?_cons_of_pos _ (by simp [hm])]
        simp [FindProxyForHost, hm]

theorem splitCh_cons (c : Byte) (t : Bytes) :
    splitCh (c :: t) =
      if c = colonB then [] :: splitCh t
      else match splitCh t with
        | [] => [[c]]
        | h :: r => (c :: h) :: r := rfl

theorem splitCh_ne_nil (l : Bytes) : splitCh l ≠ [] := by
  cases l with
  | nil => simp [splitCh]
  | cons c t =>
    simp only [splitCh]
    split
    · simp
    · cases h : splitCh t <;> simp

theorem splitCh_no_colon {l : Bytes} (h : colonB ∉ l) : splitCh l = [l] := by
  induction l with
  | nil => rfl
  | cons c t ih =>
    have hc : ¬ c = colonB := by
      rintro rfl
      exact h (List.mem_cons_self _ _)
    have ht : colonB ∉ t := fun m => h (List.mem_cons_of_mem c m)
    simp [splitCh, hc, ih ht]

theorem splitCh_append (a b : Bytes) :
    splitCh (a ++ colonB :: b) = splitCh a ++ splitCh b := by
  induction a with
  | nil => simp [splitCh]
  | cons c a ih =>
    by_cases hc : c = colonB
    · simp [splitCh, hc, ih]
    · cases h : splitCh a with
      | nil => exact absurd h (splitCh_ne_nil a)
      | cons x xs =>
        rw [List.cons_append, splitCh_cons, if_neg hc, ih, h, splitCh_cons, if_neg hc, h]
        rfl

theorem intercalateColon_splitCh (a : Bytes) : intercalateColon (splitCh a) = a := by
  induction a with
  | nil => rfl
  | cons c a ih =>
    cases h : splitCh a with
    | nil => exact absurd h (splitCh_ne_nil a)
    | cons x xs =>
      rw [h] at ih
      by_cases hc : c = colonB
      · subst hc
        simp [splitCh, h, intercalateColon, ih]
      · cases xs with
        | nil =>
          simp only [intercalateColon] at ih
          simp [splitCh, hc, h, intercalateColon, ih]
        | cons y ys =>
          simp only [intercalateColon] at ih ⊢
          simp [splitCh, hc, h, intercalateColon, ih]

theorem lastColonIdx_none {l : Bytes} (h : colonB ∉ l) : lastColonIdx l = none := by
  induction l with
  | nil => rfl
  | cons c t ih =>
    have hc : ¬ c = colonB := by
      rintro rfl
      exact h (List.mem_cons_self _ _)
    have ht : colonB ∉ t := fun m => h (List.mem_cons_of_mem c m)
    simp [lastColonIdx, ih ht, hc]

theorem lastColonIdx_append (a b : Bytes) (hb : colonB ∉ b) :
    lastColonIdx (a ++ colonB :: b) = some a.length := by
  induction a with
  | nil => simp [lastColonIdx, lastColonIdx_none hb]
  | cons c a ih => simp [lastColonIdx, ih]

theorem exists_last_colon {p : Bytes} (h : colonB ∈ p) :
    ∃ a b, p = a ++ colonB :: b ∧ colonB ∉ b := by
  induction p with
  | nil => cases h
  | cons c t ih =>
    by_cases ht : colonB ∈ t
    · obtain ⟨a, b, rfl, hb⟩ := ih ht
      exact ⟨c :: a, b, rfl, hb⟩
    · have hc : c = colonB := by
        rcases List.mem_cons.mp h with h' | h'
        · exact h'.symm
        · exact absurd h' ht
      exact ⟨[], t, by simp [hc], ht⟩

/-- C3 (amended): for a matched rule's raw action string other than
`"DIRECT"`/`"DROP"`, `parseProxyAddress` splits on the last colon, the port
defaults to 3128 when the colon or the port substring is absent or when the
substring is non-numeric (Go `Atoi` error), and a parsed numeric value is
used as-is — the source applies no `[1, 65535]` range check.  (Original
claim corrected: see the counterexample for the missing range check.) -/
theorem parseProxyAddress_last_colon_no_range_check (proxy : Bytes) :
    parseProxyAddress proxy = specParseProxyAddress proxy := by
  by_cases h : colonB ∈ proxy
  · obtain ⟨a, b, rfl, hb⟩ := exists_last_colon h
    have h1 : lastColonIdx (a ++ colonB :: b) = some a.length :=
      lastColonIdx_append a b hb
    have h2 : splitCh (a ++ colonB :: b) = splitCh a ++ [b] := by
      rw [splitCh_append, splitCh_no_colon hb]
    have htake : (a ++ colonB :: b).take a.length = a := List.take_left a _
    have hdrop : (a ++ colonB :: b).drop (a.length + 1) = b := by
      have he : a ++ colonB :: b = (a ++ [colonB]) ++ b := by simp
      have hlen : a.length + 1 = (a ++ [colonB]).length := by simp
      rw [he, hlen, List.drop_left]
    have hlen2 : ¬ ((splitCh a ++ [b]).length ≤ 1) := by
      have := List.length_pos.mpr (splitCh_ne_nil a)
      simp only [List.length_append, List.length_cons, List.length_nil]
      omega
    simp only [parseProxyAddress, h1, specParseProxyAddress, h2, htake, hdrop,
      if_neg hlen2, List.dropLast_concat, intercalateColon_splitCh,
      List.getLastD_concat]
    by_cases hb0 : b = []
    · subst hb0
      rw [show goAtoi ([] : Bytes) = none from rfl]
      simp
    · simp [hb0]
  · have h1 : lastColonIdx proxy = none := lastColonIdx_none h
    have h2 : splitCh proxy = [proxy] := splitCh_no_colon h
    simp [parseProxyAddress, h1, specParseProxyAddress, h2]

/-- C3, counterexample to the original claim: the action string `"h:70000"`
has a port outside `[1, 65535]`, yet `parseProxyAddress` returns port 70000
rather than falling back to 3128 — the source has no range check. -/
theorem parseProxyAddress_c3_counterexample :
    parseProxyAddress (strB "h:70000") = (strB "h", 70000) ∧
      claimParseProxyAddress (strB "h:70000") = (strB "h", 3128) ∧
      parseProxyAddress (strB "h:70000") ≠ claimParseProxyAddress (strB "h:70000") :=
  ⟨by decide, by decide, by decide⟩

theorem litMatchAt_iff (p : Bytes) : ∀ t, litMatchAt p t = true ↔ p <+: t := by
  induction p with
  | nil =>
    intro t
    simp [litMatchAt, List.nil_prefix]
  | cons x ps ih =>
    intro t
    cases t with
    | nil => simp [litMatchAt, List.prefix_nil]
    | cons y ts =>
      simp only [litMatchAt, Bool.and_eq_true, beq_iff_eq, ih, List.cons_prefix_cons]

theorem goMatchLit_iff (p h : Bytes) : goMatchLit p h = true ↔ p <:+: h := by
  induction h with
  | nil => simp [goMatchLit, litMatchAt_iff, List.prefix_nil, List.infix_nil]
  | cons c t ih =>
    simp only [goMatchLit, Bool.or_eq_true, litMatchAt_iff, ih]
    rw [ List.infix_cons_iff]

/-- C8 (amended): the rule engine's matcher — Go `regexp.MatchString`,
embedded for metacharacter-free patterns as `litOracle`/`goMatchLit` — holds
exactly when the pattern matches *some substring* of the host, not only when
it matches the host as a whole string; whole-string matching requires
explicit `^`/`$` anchors in the pattern. -/
theorem ruleMatch_substring_semantics (p h : Bytes)
    (hmeta : regexMetaFree p = true) :
    litOracle p h = some true ↔ p <:+: h := by
  rw [litOracle, if_pos hmeta]
  rw [show (some (goMatchLit p h) = some true) ↔ (goMatchLit p h = true) by simp]
  exact goMatchLit_iff p h

/-- C8, witness for the amended claim at a concrete pattern and host. -/
theorem ruleMatch_substring_semantics_witness :
    litOracle (strB "a") (strB "ba") = some true :=
  (ruleMatch_substring_semantics (strB "a") (strB "ba") (by decide)).mpr (by decide)

/-- C8, counterexample to the original claim: with the literal
(metacharacter-free) pattern `"a"` and host `"ba"`, the rule engine
considers the rule matching — `FindProxyForHost` resolves to its action —
although the pattern does not match the entire host string (`"a" ≠ "ba"`,
and `"a"` is not even a prefix of `"ba"`). -/
theorem ruleMatch_c8_counterexample :
    litOracle (strB "a") (strB "ba") = some true ∧
      FindProxyForHost litOracle (strB "ba") [⟨strB "a", strB "DROP"⟩] =
        ⟨strB "DROP", [], 0⟩ ∧
      strB "a" ≠ strB "ba" :=
  ⟨by decide, by decide, by decide⟩

/-! ### Connection handler and relay (claims C7, C9, C10) -/

/-- C7: when the action is not `DROP`, the dial succeeded and the peek
buffer is non-empty, the peek bytes are written to the upstream in full,
exactly once and in order, as the first write and before the relays start;
if that write fails, no relaying takes place. -/
theorem proxyConnection_peek_replay (a : ProxyAction) (initialData : Bytes)
    (env : ProxyConnEnv) (hnd : a.typ ≠ strB "DROP") (hdial : env.dialOk = true)
    (hinit : initialData ≠ []) :
    (env.writeInitialOk = true →
      proxyConnectionUpstream a initialData env =
        (initialData :: env.clientChunks, true)) ∧
    (env.writeInitialOk = false →
      proxyConnectionUpstream a initialData env = ([], false)) := by
  constructor <;> intro hw <;>
    simp [proxyConnectionUpstream, hnd, hdial, hinit, hw]

/-- C7, witness: a concrete run replaying the peeked byte `0x62` ahead of
the relayed chunk `[0x61]`. -/
theorem proxyConnection_peek_replay_witness :
    proxyConnectionUpstream ⟨strB "PROXY", strB "p", 3128⟩ [0x62]
      ⟨true, true, [[0x61]]⟩ = ([[0x62], [0x61]], true) :=
  (proxyConnection_peek_replay ⟨strB "PROXY", strB "p", 3128⟩ [0x62]
    ⟨true, true, [[0x61]]⟩ (by decide) rfl (by decide)).1 rfl

theorem pipeCopy_flatten (l : List Bytes) : (pipeCopy l).flatten = l.flatten := by
  induction l with
  | nil => rfl
  | cons c t ih =>
    by_cases hc : c = []
    · subst hc
      simp [pipeCopy, ih]
    · simp [pipeCopy, hc, ih]

/-- C9 (amended): when `Pipe` exits it closes `dst` entirely — the deferred
`dst.Close()` is a full `net.Conn.Close`, not a write-only shutdown — so the
peer does observe end-of-stream (write side down) but `dst`'s read side is
closed as well; the bytes delivered are exactly the source's bytes in
order. -/
theorem Pipe_closes_dst_fully (srcChunks : List Bytes) (dst : ConnEnd) :
    (Pipe srcChunks dst).2.writeOpen = false ∧
      (Pipe srcChunks dst).2.readOpen = false ∧
      (Pipe srcChunks dst).1.flatten = srcChunks.flatten :=
  ⟨rfl, rfl, pipeCopy_flatten srcChunks⟩

/-- C9, counterexample to the original claim: after `Pipe` exits, `dst`'s
read side is *not* left usable — the final state is a full close, different
from the half-close (`CloseWrite`) state the claim describes. -/
theorem Pipe_c9_half_close_counterexample :
    (Pipe [] ⟨true, true⟩).2.readOpen = false ∧
      (Pipe [] ⟨true, true⟩).2 ≠ goConnCloseWrite ⟨true, true⟩ :=
  ⟨rfl, by decide⟩

/-- C10: a resolved action of type `PROXY` whose host is empty or whose port
is zero is not dropped and raises no error: `proxyConnection` falls back to
a direct dial of the target, exactly as for a `DIRECT` action. -/
theorem proxyConnection_incomplete_proxy_falls_back_direct
    (a : ProxyAction) (targetHost : Bytes) (targetPort : Int)
    (hp : a.typ = strB "PROXY") (hbad : a.host = [] ∨ a.port = 0) :
    dispatchOf a targetHost targetPort = .direct targetHost targetPort ∧
      dispatchOf a targetHost targetPort =
        dispatchOf ⟨strB "DIRECT", [], 0⟩ targetHost targetPort ∧
      dispatchOf a targetHost targetPort ≠ .drop := by
  have hnd : ¬ a.typ = strB "DROP" := by
    rw [hp]
    decide
  have hng : ¬ (a.typ = strB "PROXY" ∧ a.host ≠ [] ∧ a.port ≠ 0) := by
    rintro ⟨-, h1, h2⟩
    rcases hbad with h | h
    · exact h1 h
    · exact h2 h
  refine ⟨?_, ?_, ?_⟩ <;> simp +decide [dispatchOf, hnd, hng]

/-- C10, witness: a `PROXY` action with empty host dials direct. -/
theorem proxyConnection_incomplete_proxy_witness :
    dispatchOf ⟨strB "PROXY", [], 3128⟩ (strB "example.com") 443 =
      Dispatch.direct (strB "example.com") 443 :=
  (proxyConnection_incomplete_proxy_falls_back_direct ⟨strB "PROXY", [], 3128⟩
    (strB "example.com") 443 (by decide) (Or.inl rfl)).1

/-! ### HTTP Host parser (claim C4) -/

theorem readLine_cons (c : Byte) (t : Bytes) :
    readLine (c :: t) =
      if c = nlB then some ([c], t)
      else match readLine t with
        | none => none
        | some (l, r) => some (c :: l, r) := rfl

theorem linesOf_cons (c : Byte) (t : Bytes) :
    linesOf (c :: t) =
      if c = nlB then [nlB] :: linesOf t
      else match linesOf t with
        | [] => []
        | l :: ls => (c :: l) :: ls := rfl

theorem linesOf_eq_nil_iff (d : Bytes) : linesOf d = [] ↔ readLine d = none := by
  induction d with
  | nil => simp [linesOf, readLine]
  | cons c t ih =>
    by_cases hc : c = nlB
    · simp [linesOf_cons, readLine_cons, hc]
    · rw [linesOf_cons, readLine_cons, if_neg hc, if_neg hc]
      cases hl : linesOf t with
      | nil =>
        rw [ih.mp hl]
        simp
      | cons l ls =>
        cases hr : readLine t with
        | none => exact absurd (ih.mpr hr) (by simp [hl])
        | some p =>
          obtain ⟨l0, r0⟩ := p
          simp

theorem readLine_some : ∀ {d l r : Bytes}, readLine d = some (l, r) →
    linesOf d = l :: linesOf r ∧ d = l ++ r ∧ l ≠ [] := by
  intro d
  induction d with
  | nil =>
    intro l r h
    exact absurd h (by simp [readLine])
  | cons c t ih =>
    intro l r h
    by_cases hc : c = nlB
    · rw [readLine_cons, if_pos hc] at h
      simp only [Option.some.injEq, Prod.mk.injEq] at h
      obtain ⟨h1, h2⟩ := h
      subst h1
      subst h2
      subst hc
      refine ⟨?_, rfl, by simp⟩
      rw [linesOf_cons, if_pos rfl]
    · rw [readLine_cons, if_neg hc] at h
      cases hr : readLine t with
      | none =>
        rw [hr] at h
        exact absurd h (by simp)
      | some p =>
        obtain ⟨l0, r0⟩ := p
        rw [hr] at h
        simp only [Option.some.injEq, Prod.mk.injEq] at h
        obtain ⟨h1, h2⟩ := h
        subst h1
        subst h2
        obtain ⟨hl, he, _⟩ := ih hr
        refine ⟨?_, by simp [he], by simp⟩
        rw [linesOf_cons, if_neg hc, hl]

theorem notColon_true {c : Byte} (h : c ≠ colonB) : notColon c = true := by
  simp [notColon, h]

theorem takeWhile_notColon_no {l : Bytes} (h : colonB ∉ l) :
    l.takeWhile notColon = l := by
  induction l with
  | nil => rfl
  | cons c t ih =>
    have hc : c ≠ colonB := by
      rintro rfl
      exact h (List.mem_cons_self _ _)
    have ht : colonB ∉ t := fun m => h (List.mem_cons_of_mem c m)
    rw [List.takeWhile_cons, if_pos (notColon_true hc), ih ht]

theorem dropWhile_notColon_no {l : Bytes} (h : colonB ∉ l) :
    l.dropWhile notColon = [] := by
  induction l with
  | nil => rfl
  | cons c t ih =>
    have hc : c ≠ colonB := by
      rintro rfl
      exact h (List.mem_cons_self _ _)
    have ht : colonB ∉ t := fun m => h (List.mem_cons_of_mem c m)
    rw [List.dropWhile_cons, if_pos (notColon_true hc), ih ht]

theorem takeWhile_notColon_append (a r : Bytes) (h : colonB ∉ a) :
    (a ++ colonB :: r).takeWhile notColon = a := by
  induction a with
  | nil =>
    simp [List.takeWhile_cons, notColon]
  | cons c t ih =>
    have hc : c ≠ colonB := by
      rintro rfl
      exact h (List.mem_cons_self _ _)
    have ht : colonB ∉ t := fun m => h (List.mem_cons_of_mem c m)
    rw [List.cons_append, List.takeWhile_cons, if_pos (notColon_true hc), ih ht]

theorem dropWhile_notColon_append (a r : Bytes) (h : colonB ∉ a) :
    (a ++ colonB :: r).dropWhile notColon = colonB :: r := by
  induction a with
  | nil =>
    simp [List.dropWhile_cons, notColon]
  | cons c t ih =>
    have hc : c ≠ colonB := by
      rintro rfl
      exact h (List.mem_cons_self _ _)
    have ht : colonB ∉ t := fun m => h (List.mem_cons_of_mem c m)
    rw [List.cons_append, List.dropWhile_cons, if_pos (notColon_true hc), ih ht]

theorem exists_first_colon {p : Bytes} (h : colonB ∈ p) :
    ∃ a r, p = a ++ colonB :: r ∧ colonB ∉ a := by
  induction p with
  | nil => cases h
  | cons c t ih =>
    by_cases hc : c = colonB
    · exact ⟨[], t, by simp [hc], by simp⟩
    · have ht : colonB ∈ t := by
        rcases List.mem_cons.mp h with h' | h'
        · exact absurd h'.symm hc
        · exact h'
      obtain ⟨a, r, rfl, ha⟩ := ih ht
      refine ⟨c :: a, r, rfl, ?_⟩
      intro m
      rcases List.mem_cons.mp m with h' | h'
      · exact hc h'.symm
      · exact ha h'

theorem splitCh_headD (l : Bytes) :
    (splitCh l).headD [] = l.takeWhile notColon := by
  induction l with
  | nil => rfl
  | cons c t ih =>
    by_cases hc : c = colonB
    · subst hc
      simp [splitCh_cons, List.takeWhile_cons, notColon]
    · cases h : splitCh t with
      | nil => exact absurd h (splitCh_ne_nil t)
      | cons x xs =>
        rw [h] at ih
        rw [splitCh_cons, if_neg hc, h, List.takeWhile_cons,
          if_pos (notColon_true hc)]
        simp only [List.headD] at ih ⊢
        rw [← ih]

theorem parseHostValue_eq_spec (hostStr : Bytes) :
    parseHostValue hostStr = specHostValue hostStr := by
  by_cases h : colonB ∈ hostStr
  · obtain ⟨a, r, rfl, ha⟩ := exists_first_colon h
    have hsplit : splitCh (a ++ colonB :: r) = a :: splitCh r := by
      rw [splitCh_append, splitCh_no_colon ha]
      rfl
    have htw := takeWhile_notColon_append a r ha
    have hdw := dropWhile_notColon_append a r ha
    have hlen : (a :: splitCh r).length > 1 := by
      have := List.length_pos.mpr (splitCh_ne_nil r)
      simp only [List.length_cons]
      omega
    have hgetd : (a :: splitCh r).getD 1 [] = r.takeWhile notColon := by
      show (splitCh r).getD 0 [] = _
      rw [← splitCh_headD]
      cases hs : splitCh r with
      | nil => exact absurd hs (splitCh_ne_nil r)
      | cons x xs => rfl
    simp only [parseHostValue, specHostValue, hsplit, htw, hdw, if_pos hlen, hgetd]
    simp
  · have htw := takeWhile_notColon_no h
    have hdw := dropWhile_notColon_no h
    have hsplit := splitCh_no_colon h
    have hlen : ¬ (([hostStr] : List Bytes).length > 1) := by simp
    simp only [parseHostValue, specHostValue, hsplit, htw, hdw, if_neg hlen,
      List.headD]

theorem ParseHTTPHostLoop_lines : ∀ fuel rest, rest.length < fuel →
    ParseHTTPHostLoop fuel rest =
      match ((linesOf rest).takeWhile notCRLF).find?
          (fun l => hostHeader.isPrefixOf l) with
      | none => ([], 80)
      | some line => parseHostValue (trimSpace (line.drop hostHeader.length)) := by
  intro fuel
  induction fuel with
  | zero =>
    intro rest h
    exact absurd h (by omega)
  | succ fuel ih =>
    intro rest hlen
    cases hr : readLine rest with
    | none =>
      have h0 : linesOf rest = [] := (linesOf_eq_nil_iff rest).mpr hr
      simp [ParseHTTPHostLoop, hr, h0]
    | some p =>
      obtain ⟨line, rest'⟩ := p
      obtain ⟨hlines, heq, hne⟩ := readLine_some hr
      by_cases hcrlf : line = crlfB
      · have hpred : notCRLF crlfB = false := by decide
        simp [ParseHTTPHostLoop, hr, hcrlf, hlines, List.takeWhile_cons, hpred]
      · have hpred : notCRLF line = true := by simp [notCRLF, hcrlf]
        by_cases hhost : hostHeader.isPrefixOf line
        · simp [ParseHTTPHostLoop, hr, hcrlf, hhost, hlines, List.takeWhile_cons,
            hpred, List.find?_cons_of_pos _ hhost]
        · have hlt : rest'.length < fuel := by
            have h1 : rest.length = line.length + rest'.length := by
              rw [heq]
              simp
            have h2 : 0 < line.length := List.length_pos.mpr hne
            omega
          rw [show ParseHTTPHostLoop (fuel+1) rest = ParseHTTPHostLoop fuel rest' by
            simp [ParseHTTPHostLoop, hr, hcrlf, hhost]]
          rw [ih rest' hlt, hlines]
          rw [List.takeWhile_cons, if_pos hpred,
            List.find?_cons_of_neg _ (by simp [hhost])]

/-- C4 (amended): `ParseHTTPHost` skips the request line, finds the first
`Host: ` header line before the blank line, trims whitespace, and splits the
value at the *first* colon (Go `strings.Split` + `parts[0]`/`parts[1]`): the
part before the first colon becomes the host, the part between the first and
second colon becomes the port whenever Go `Atoi` accepts it (no `uint16`
range check), and otherwise the port stays 80; with no Host header before
the empty line or a read error the result is `("", 80)`.  (Original claim
corrected: the source splits at the first colon, not the last, and applies
no `uint16` bound — see the counterexample.) -/
theorem ParseHTTPHost_first_colon_spec (data : Bytes) :
    ParseHTTPHost data = specParseHTTPHost data := by
  cases hr : readLine data with
  | none =>
    have h0 : linesOf data = [] := (linesOf_eq_nil_iff data).mpr hr
    simp [ParseHTTPHost, hr, specParseHTTPHost, h0]
  | some p =>
    obtain ⟨line, rest⟩ := p
    obtain ⟨hlines, heq, hne⟩ := readLine_some hr
    rw [show ParseHTTPHost data = ParseHTTPHostLoop (rest.length + 1) rest by
      simp [ParseHTTPHost, hr]]
    rw [ParseHTTPHostLoop_lines (rest.length + 1) rest (by omega)]
    rw [specParseHTTPHost, hlines]
    cases hf : ((linesOf rest).takeWhile notCRLF).find?
        (fun l => hostHeader.isPrefixOf l) with
    | none => simp [hf]
    | some l => simp [hf, parseHostValue_eq_spec]

/-- C4, counterexample to the original claim: for the request head
`"GET / HTTP/1.1\r\nHost: a:b:8080\r\n\r\n"` the code splits the Host value
`"a:b:8080"` at the *first* colon — host `"a"`, and port candidate `"b"`
fails `Atoi`, so port 80 — whereas the claim's last-colon split with a
`uint16` port yields host `"a:b"` and port 8080. -/
theorem ParseHTTPHost_c4_counterexample :
    ParseHTTPHost (strB "GET / HTTP/1.1\r\nHost: a:b:8080\r\n\r\n") =
      (strB "a", 80) ∧
    claimParseHTTPHost (strB "GET / HTTP/1.1\r\nHost: a:b:8080\r\n\r\n") =
      (strB "a:b", 8080) ∧
    ParseHTTPHost (strB "GET / HTTP/1.1\r\nHost: a:b:8080\r\n\r\n") ≠
      claimParseHTTPHost (strB "GET / HTTP/1.1\r\nHost: a:b:8080\r\n\r\n") :=
  ⟨by decide, by decide, by decide⟩

/-! ### Upstream CONNECT handshake (claim C5) -/

theorem skipRespHeaders_spec : ∀ fuel rest, rest.length < fuel →
    skipRespHeaders fuel rest = specAfterHeaders rest := by
  intro fuel
  induction fuel with
  | zero =>
    intro rest h
    exact absurd h (by omega)
  | succ fuel ih =>
    intro rest hlen
    cases hr : readLine rest with
    | none =>
      have h0 : linesOf rest = [] := (linesOf_eq_nil_iff rest).mpr hr
      simp [skipRespHeaders, hr, specAfterHeaders, h0]
    | some p =>
      obtain ⟨line, rest'⟩ := p
      obtain ⟨hlines, heq, hne⟩ := readLine_some hr
      by_cases hcrlf : line = crlfB
      · subst hcrlf
        have hpred : notCRLF crlfB = false := by decide
        rw [show skipRespHeaders (fuel+1) rest = rest' by simp [skipRespHeaders, hr]]
        simp only [specAfterHeaders, hlines, List.takeWhile_cons, hpred,
          Bool.false_eq_true, if_false, List.length_nil, List.length_cons]
        rw [if_neg (by omega), heq]
        rfl
      · have hpred : notCRLF line = true := by simp [notCRLF, hcrlf]
        have hlt : rest'.length < fuel := by
          have h1 : rest.length = line.length + rest'.length := by
            rw [heq]
            simp
          have h2 : 0 < line.length := List.length_pos.mpr hne
          omega
        rw [show skipRespHeaders (fuel+1) rest = skipRespHeaders fuel rest' by
          simp [skipRespHeaders, hr, hcrlf]]
        rw [ih rest' hlt]
        simp only [specAfterHeaders, hlines, List.takeWhile_cons, hpred, if_true,
          List.length_cons, List.map_cons, List.sum_cons]
        by_cases heqlen :
            ((linesOf rest').takeWhile notCRLF).length = (linesOf rest').length
        · rw [if_pos heqlen, if_pos (by omega)]
        · rw [if_neg heqlen, if_neg (by omega), heq]
          have harith :
              line.length + ((((linesOf rest').takeWhile notCRLF).map
                List.length).sum) + 2 =
              line.length + ((((linesOf rest').takeWhile notCRLF).map
                List.length).sum + 2) := by omega
          rw [harith, List.drop_append]


/-! ### Upstream CONNECT handshake through the buffered reader (claim C5) -/

theorem readLine_extend {buf l r : Bytes} (h : readLine buf = some (l, r)) :
    ∀ X, readLine (buf ++ X) = some (l, r ++ X) := by
  induction buf generalizing l r with
  | nil => exact absurd h (by simp [readLine])
  | cons c t ih =>
    intro X
    by_cases hc : c = nlB
    · rw [readLine_cons, if_pos hc] at h
      simp only [Option.some.injEq, Prod.mk.injEq] at h
      obtain ⟨h1, h2⟩ := h
      subst h1
      subst h2
      rw [List.cons_append, readLine_cons, if_pos hc]
    · rw [readLine_cons, if_neg hc] at h
      cases hr : readLine t with
      | none =>
        rw [hr] at h
        exact absurd h (by simp)
      | some p =>
        obtain ⟨l0, r0⟩ := p
        rw [hr] at h
        simp only [Option.some.injEq, Prod.mk.injEq] at h
        obtain ⟨h1, h2⟩ := h
        subst h1
        subst h2
        rw [List.cons_append, readLine_cons, if_neg hc, ih hr X]

theorem bufReadLine_some : ∀ {fuel : Nat} {buf : Bytes} {conn : List Bytes}
    {l b' : Bytes} {conn' : List Bytes},
    bufReadLine fuel buf conn = some (l, b', conn') →
    readLine (buf ++ conn.flatten) = some (l, b' ++ conn'.flatten) := by
  intro fuel
  induction fuel with
  | zero =>
    intro buf conn l b' conn' h
    cases hr : readLine buf with
    | none =>
      rw [show bufReadLine 0 buf conn = none by simp [bufReadLine, hr]] at h
      exact absurd h (by simp)
    | some p =>
      obtain ⟨l0, r0⟩ := p
      rw [show bufReadLine 0 buf conn = some (l0, r0, conn) by
        simp [bufReadLine, hr]] at h
      simp only [Option.some.injEq, Prod.mk.injEq] at h
      obtain ⟨h1, h2, h3⟩ := h
      subst h1
      subst h2
      subst h3
      exact readLine_extend hr _
  | succ fuel ih =>
    intro buf conn l b' conn' h
    cases hr : readLine buf with
    | some p =>
      obtain ⟨l0, r0⟩ := p
      rw [show bufReadLine (fuel+1) buf conn = some (l0, r0, conn) by
        simp [bufReadLine, hr]] at h
      simp only [Option.some.injEq, Prod.mk.injEq] at h
      obtain ⟨h1, h2, h3⟩ := h
      subst h1
      subst h2
      subst h3
      exact readLine_extend hr _
    | none =>
      cases conn with
      | nil =>
        rw [show bufReadLine (fuel+1) buf [] = none by simp [bufReadLine, hr]] at h
        exact absurd h (by simp)
      | cons c rest =>
        rw [show bufReadLine (fuel+1) buf (c :: rest) =
            bufReadLine fuel (buf ++ c) rest by simp [bufReadLine, hr]] at h
        have := ih h
        rw [List.flatten_cons, ← List.append_assoc]
        exact this

theorem bufReadLine_none : ∀ {fuel : Nat} {buf : Bytes} {conn : List Bytes},
    bufReadLine fuel buf conn = none → conn.length ≤ fuel →
    readLine (buf ++ conn.flatten) = none := by
  intro fuel
  induction fuel with
  | zero =>
    intro buf conn h hf
    have hc : conn = [] := List.length_eq_zero.mp (by omega)
    subst hc
    cases hr : readLine buf with
    | some p =>
      obtain ⟨l0, r0⟩ := p
      rw [show bufReadLine 0 buf [] = some (l0, r0, []) by
        simp [bufReadLine, hr]] at h
      exact absurd h (by simp)
    | none => simpa using hr
  | succ fuel ih =>
    intro buf conn h hf
    cases hr : readLine buf with
    | some p =>
      obtain ⟨l0, r0⟩ := p
      rw [show bufReadLine (fuel+1) buf conn = some (l0, r0, conn) by
        simp [bufReadLine, hr]] at h
      exact absurd h (by simp)
    | none =>
      cases conn with
      | nil => simpa using hr
      | cons c rest =>
        rw [show bufReadLine (fuel+1) buf (c :: rest) =
            bufReadLine fuel (buf ++ c) rest by simp [bufReadLine, hr]] at h
        have := ih h (by simp only [List.length_cons] at hf; omega)
        rw [List.flatten_cons, ← List.append_assoc]
        exact this

theorem specAfterHeaders_none {s : Bytes} (h : readLine s = none) :
    specAfterHeaders s = [] := by
  have h0 : linesOf s = [] := (linesOf_eq_nil_iff s).mpr h
  simp [specAfterHeaders, h0]

theorem specAfterHeaders_crlf {s rest : Bytes} (h : readLine s = some (crlfB, rest)) :
    specAfterHeaders s = rest := by
  rw [← skipRespHeaders_spec (s.length + 1) s (by omega)]
  simp [skipRespHeaders, h]

theorem specAfterHeaders_step {s line rest : Bytes} (h : readLine s = some (line, rest))
    (hne : line ≠ crlfB) : specAfterHeaders s = specAfterHeaders rest := by
  obtain ⟨_, heq, hl⟩ := readLine_some h
  have h1 : rest.length < s.length := by
    have h2 : 0 < line.length := List.length_pos.mpr hl
    rw [heq]
    simp only [List.length_append]
    omega
  rw [← skipRespHeaders_spec (s.length + 1) s (by omega)]
  rw [show skipRespHeaders (s.length + 1) s = skipRespHeaders s.length rest by
    simp [skipRespHeaders, h, hne]]
  exact skipRespHeaders_spec s.length rest h1

/-- Relating the buffered discard loop to the byte-stream end-of-headers
position: some prefix of the post-header stream (the reader's read-ahead)
is lost, and the socket keeps the rest. -/
theorem skipRespHeadersBuf_suffix :
    ∀ fuel (buf : Bytes) (conn : List Bytes),
      buf.length + conn.flatten.length < fuel →
      ∃ lost, lost ++ (skipRespHeadersBuf fuel buf conn).flatten =
        specAfterHeaders (buf ++ conn.flatten) := by
  intro fuel
  induction fuel with
  | zero =>
    intro buf conn h
    exact absurd h (by omega)
  | succ fuel ih =>
    intro buf conn hlen
    cases hbr : bufReadLine (conn.length + 1) buf conn with
    | none =>
      have h0 := bufReadLine_none hbr (by omega)
      refine ⟨[], ?_⟩
      rw [show skipRespHeadersBuf (fuel+1) buf conn = [] by
        simp [skipRespHeadersBuf, hbr]]
      rw [specAfterHeaders_none h0]
      rfl
    | some p =>
      obtain ⟨line, buf', conn'⟩ := p
      have hrl := bufReadLine_some hbr
      obtain ⟨_, heqS, hlne⟩ := readLine_some hrl
      by_cases hc : line = crlfB
      · subst hc
        refine ⟨buf', ?_⟩
        rw [show skipRespHeadersBuf (fuel+1) buf conn = conn' by
          simp [skipRespHeadersBuf, hbr]]
        rw [specAfterHeaders_crlf hrl]
      · have htot : buf'.length + conn'.flatten.length < fuel := by
          have h1 : (buf ++ conn.flatten).length =
              line.length + (buf' ++ conn'.flatten).length := by
            rw [heqS]
            simp
          have h2 : 0 < line.length := List.length_pos.mpr hlne
          simp only [List.length_append] at h1
          omega
        obtain ⟨lost, hl⟩ := ih buf' conn' htot
        refine ⟨lost, ?_⟩
        rw [show skipRespHeadersBuf (fuel+1) buf conn =
            skipRespHeadersBuf fuel buf' conn' by
          simp [skipRespHeadersBuf, hbr, hc]]
        rw [hl, specAfterHeaders_step hrl hc]

/-- C5 (amended): `ConnectViaProxy` sends the CONNECT request (request line,
`Host`, `X-Forwarded-For`, `Forwarded`, blank line) verbatim in one write —
it is the request component of every outcome; reading through the buffered
reader changes neither the status-line verdict nor its content: the upstream
is established iff the status line of the response stream begins with
`HTTP/1.1 200` (no complete status line is a read error), and any other
status line yields an error carrying that very line; on success, header
lines are consumed and discarded through the CRLF-only line, but the
function returns the raw socket and discards the reader, so the socket is
positioned at or beyond the end of the upstream headers: the byte-exact
end-of-headers stream equals a lost read-ahead prefix followed by what the
socket still delivers.  (Original claim corrected: the "positioned exactly
at the end of the upstream headers" conjunct fails, see the
counterexample.) -/
theorem ConnectViaProxy_headers_on_buffered_reads (targetHost : Bytes)
    (targetPort : Int) (clientIP : Bytes) (respChunks : List Bytes) :
    (ConnectViaProxy targetHost targetPort clientIP respChunks =
        .readErr (connectRequest targetHost targetPort clientIP) ↔
      specConnectViaProxy targetHost targetPort clientIP respChunks.flatten =
        .readErr (connectRequest targetHost targetPort clientIP)) ∧
    (∀ sl, ConnectViaProxy targetHost targetPort clientIP respChunks =
        .refused (connectRequest targetHost targetPort clientIP) sl ↔
      specConnectViaProxy targetHost targetPort clientIP respChunks.flatten =
        .refused (connectRequest targetHost targetPort clientIP) sl) ∧
    ((∃ lo, ConnectViaProxy targetHost targetPort clientIP respChunks =
        .ok (connectRequest targetHost targetPort clientIP) lo) ↔
      (∃ lo, specConnectViaProxy targetHost targetPort clientIP respChunks.flatten =
        .ok (connectRequest targetHost targetPort clientIP) lo)) ∧
    (∀ lo, ConnectViaProxy targetHost targetPort clientIP respChunks =
        .ok (connectRequest targetHost targetPort clientIP) lo →
      ∃ lost, specConnectViaProxy targetHost targetPort clientIP respChunks.flatten =
        .ok (connectRequest targetHost targetPort clientIP) (lost ++ lo)) := by
  cases hbr : bufReadLine (respChunks.length + 1) [] respChunks with
  | none =>
    have h0 : readLine respChunks.flatten = none := by
      have := bufReadLine_none hbr (by omega)
      simpa using this
    have hl0 : linesOf respChunks.flatten = [] := (linesOf_eq_nil_iff _).mpr h0
    have hchunk : ConnectViaProxy targetHost targetPort clientIP respChunks =
        .readErr (connectRequest targetHost targetPort clientIP) := by
      simp [ConnectViaProxy, hbr]
    have hspec : specConnectViaProxy targetHost targetPort clientIP
        respChunks.flatten =
        .readErr (connectRequest targetHost targetPort clientIP) := by
      simp [specConnectViaProxy, hl0]
    rw [hchunk, hspec]
    exact ⟨Iff.rfl, fun sl => Iff.rfl, Iff.rfl,
      fun lo hlo => absurd hlo (by simp)⟩
  | some p =>
    obtain ⟨sl, buf, conn⟩ := p
    have hrl : readLine respChunks.flatten = some (sl, buf ++ conn.flatten) := by
      have := bufReadLine_some hbr
      simpa using this
    obtain ⟨hlines, heq, hne⟩ := readLine_some hrl
    have hdrop : respChunks.flatten.drop sl.length = buf ++ conn.flatten := by
      rw [heq]
      exact List.drop_left _ _
    by_cases h200 : (strB "HTTP/1.1 200").isPrefixOf sl
    · obtain ⟨lost, hl⟩ := skipRespHeadersBuf_suffix
        (buf.length + conn.flatten.length + 1) buf conn (by omega)
      have hchunk : ConnectViaProxy targetHost targetPort clientIP respChunks =
          .ok (connectRequest targetHost targetPort clientIP)
            (skipRespHeadersBuf (buf.length + conn.flatten.length + 1)
              buf conn).flatten := by
        simp [ConnectViaProxy, hbr, h200]
      have hspec : specConnectViaProxy targetHost targetPort clientIP
          respChunks.flatten =
          .ok (connectRequest targetHost targetPort clientIP)
            (specAfterHeaders (buf ++ conn.flatten)) := by
        simp [specConnectViaProxy, hlines, h200, hdrop]
      rw [hchunk, hspec]
      refine ⟨by simp, fun sl' => by simp, ?_, ?_⟩
      · exact ⟨fun _ => ⟨_, rfl⟩, fun _ => ⟨_, rfl⟩⟩
      · intro lo hlo
        simp only [ConnectOutcome.ok.injEq, true_and] at hlo
        subst hlo
        exact ⟨lost, by rw [← hl]⟩
    · have hchunk : ConnectViaProxy targetHost targetPort clientIP respChunks =
          .refused (connectRequest targetHost targetPort clientIP) sl := by
        simp [ConnectViaProxy, hbr, h200]
      have hspec : specConnectViaProxy targetHost targetPort clientIP
          respChunks.flatten =
          .refused (connectRequest targetHost targetPort clientIP) sl := by
        simp [specConnectViaProxy, hlines, h200]
      rw [hchunk, hspec]
      exact ⟨Iff.rfl, fun sl' => Iff.rfl, by simp,
        fun lo hlo => absurd hlo (by simp)⟩

/-- C5, witness: applying the amended theorem to a response delivered in one
TCP segment — status line, blank line and five post-header bytes together —
whose read-ahead is lost (the chunked run returns leftover `[]`). -/
theorem ConnectViaProxy_headers_on_buffered_reads_witness :
    ∃ lost, specConnectViaProxy (strB "h") 443 (strB "ip")
        (([strB "HTTP/1.1 200 OK\r\n\r\nEARLY"] : List Bytes).flatten) =
      .ok (connectRequest (strB "h") 443 (strB "ip")) (lost ++ ([] : Bytes)) :=
  (ConnectViaProxy_headers_on_buffered_reads (strB "h") 443 (strB "ip")
    [strB "HTTP/1.1 200 OK\r\n\r\nEARLY"]).2.2.2 [] (by decide)

/-- C5, counterexample to the original claim: when the upstream delivers the
whole response `"HTTP/1.1 200 OK\r\n\r\nEARLY"` in a single segment, the
buffered reader pulls all of it, the five post-header bytes stay in the
discarded reader, and the returned socket holds nothing — whereas the end of
the upstream headers sits before `"EARLY"`, so the returned socket is *not*
positioned exactly at the end of the upstream headers. -/
theorem ConnectViaProxy_c5_counterexample :
    ConnectViaProxy (strB "h") 443 (strB "ip")
        [strB "HTTP/1.1 200 OK\r\n\r\nEARLY"] =
      .ok (connectRequest (strB "h") 443 (strB "ip")) [] ∧
    specConnectViaProxy (strB "h") 443 (strB "ip")
        (strB "HTTP/1.1 200 OK\r\n\r\nEARLY") =
      .ok (connectRequest (strB "h") 443 (strB "ip")) (strB "EARLY") ∧
    (strB "EARLY" : Bytes) ≠ [] :=
  ⟨by decide, by decide, by decide⟩
